import Mathlib

/-!
Verification of the pubsub schema manifest generator.

A shallow embedding of `tools/pubsubschema-gen/main.go`.  Strings are
modelled as `List Char` (Go strings are byte sequences; all string
operations used by the program are byte-wise and are faithfully mirrored
on character lists — for valid UTF-8, lexicographic byte order agrees
with lexicographic code-point order).  The output directory is modelled
as an optional association list from file names to entries, kept sorted
by name (a real directory is an unordered unique-key map; `os.ReadDir`
presents it sorted, so the sorted list is its canonical form).
-/

/-! ## Byte-wise string order (Go `sort.Strings` comparison) -/

/-- Lexicographic `≤` on strings, as Go compares strings. -/
def lexLe : List Char → List Char → Bool
  | [], _ => true
  | _ :: _, [] => false
  | a :: as, b :: bs =>
    if a < b then true
    else if b < a then false
    else lexLe as bs

/-- The ordering relation used to model `sort.Strings`. -/
def strLe (a b : List Char) : Prop := lexLe a b = true

instance : DecidableRel strLe := fun a b => inferInstanceAs (Decidable (lexLe a b = true))

/-- Models `sort.Strings`: sorts a string slice in ascending lexicographic order. -/
def sortStrings (l : List (List Char)) : List (List Char) :=
  List.insertionSort strLe l

/-! ## String primitives used by the generator -/

/-- Models `strings.ReplaceAll(s, "\r\n", "\n")`: one left-to-right pass replacing
every (non-overlapping) CRLF occurrence by LF. -/
def replaceAllCRLF : List Char → List Char
  | '\r' :: '\n' :: rest => '\n' :: replaceAllCRLF rest
  | c :: rest => c :: replaceAllCRLF rest
  | [] => []

/-- Models `strings.ReplaceAll` with a single-character pattern: each occurrence is
independent, so the scan is a pointwise map. -/
def replaceAllChar (s : List Char) (old new : Char) : List Char :=
  s.map fun c => if c = old then new else c

/-- Models `strings.TrimRight(s, "\n")`: remove all trailing newline characters. -/
def trimRightLF (s : List Char) : List Char :=
  (s.reverse.dropWhile fun c => c == '\n').reverse

/-- Models `strings.HasSuffix(s, suffix)`. -/
def hasSuffixB (s suffix : List Char) : Bool :=
  decide (suffix.length ≤ s.length) && decide (s.drop (s.length - suffix.length) = suffix)

/-- Models `strings.TrimSuffix(s, suffix)`: drop `suffix` from the end when present. -/
def trimSuffix (s suffix : List Char) : List Char :=
  if hasSuffixB s suffix then s.take (s.length - suffix.length) else s

/-- Models `strings.ToLower`, modelled for ASCII via `Char.toLower` (Go lowercases
the full Unicode range; on the ASCII range the two agree, and every input
the specification admits is ASCII). -/
def toLowerStr (s : List Char) : List Char :=
  s.map Char.toLower

/-- Models `filepath.Base` for Unix separators: empty path gives `"."`; otherwise
trailing separators are stripped, the part after the last separator is
taken, and an all-separator path gives `"/"`. -/
def basename (path : List Char) : List Char :=
  if path = [] then ['.']
  else
    let p := (path.reverse.dropWhile fun c => c == '/').reverse
    let q := (p.reverse.takeWhile fun c => !(c == '/')).reverse
    if q = [] then ['/'] else q

/-- Models `strings.Split(s, "\n")`: never empty; `""` splits to `[""]`. -/
def splitOnLF : List Char → List (List Char)
  | [] => [[]]
  | c :: rest =>
    if c = '\n' then [] :: splitOnLF rest
    else
      match splitOnLF rest with
      | [] => [[c]]
      | l :: ls => (c :: l) :: ls

/-- Models `strings.Join(lines, "\n")`. -/
def joinLF : List (List Char) → List Char
  | [] => []
  | [l] => l
  | l :: ls => l ++ '\n' :: joinLF ls

/-! ## The generator's pure string functions (from `main.go`) -/

/-- The fixed input-file suffix `".pubsub.proto"`. -/
def pubsubSuffix : List Char := ".pubsub.proto".toList

/-- The generated-manifest suffix `".schema.yaml"`. -/
def schemaFileSuffix : List Char := ".schema.yaml".toList

/-- The index manifest's file name `"kustomization.yaml"`. -/
def kustomizationFileName : List Char := "kustomization.yaml".toList

/-- Models `deriveSchemaNameFromFilename`: strip directories, strip the
`.pubsub.proto` suffix, lowercase, then replace `.` and `_` by `-`. -/
def deriveSchemaNameFromFilename (filename : List Char) : List Char :=
  let base := basename filename
  let base := trimSuffix base pubsubSuffix
  let safe := toLowerStr base
  let safe := replaceAllChar safe '.' '-'
  replaceAllChar safe '_' '-'

/-- Models `normalizeNewlines`: CRLF to LF, then trailing newlines are trimmed and
exactly one newline is appended. -/
def normalizeNewlines (s : List Char) : List Char :=
  trimRightLF (replaceAllCRLF s) ++ ['\n']

/-- Models `indentForYAMLLiteralBlock`: split on LF, prefix each non-empty line with
the indent and replace each empty line by the bare indent, rejoin. -/
def indentForYAMLLiteralBlock (s indent : List Char) : List Char :=
  joinLF ((splitOnLF s).map fun line => if line = [] then indent else indent ++ line)

/-- Models `schemaManifest`: the full text of one generated manifest. -/
def schemaManifest (schemaName protoDefinition : List Char) : List Char :=
  "apiVersion: pubsub.cnrm.cloud.google.com/v1beta1\n".toList ++
  "kind: PubSubSchema\n".toList ++
  "metadata:\n".toList ++
  "  name: ".toList ++ schemaName ++ "\n".toList ++
  "spec:\n".toList ++
  "  type: PROTOCOL_BUFFER\n".toList ++
  "  definition: |\n".toList ++
  indentForYAMLLiteralBlock protoDefinition ("    ".toList)

/-- The text `writeKustomization` builds: a fixed header followed by one
`  - <resource>` line per entry, in the given order. -/
def kustomizationContent (resources : List (List Char)) : List Char :=
  "apiVersion: kustomize.config.k8s.io/v1beta1\n".toList ++
  "kind: Kustomization\n\n".toList ++
  "resources:\n".toList ++
  (resources.map fun r => "  - ".toList ++ r ++ ['\n']).flatten

/-- The on-disk name of the manifest generated for input path `p`. -/
def generatedFileName (p : List Char) : List Char :=
  deriveSchemaNameFromFilename p ++ schemaFileSuffix

/-! ## Output-directory model -/

/-- A directory entry: a subdirectory or a regular file with its bytes. -/
inductive Entry where
  | dir : Entry
  | file : List Char → Entry
deriving DecidableEq

/-- Whether an entry is a directory (`os.DirEntry.IsDir`). -/
def Entry.isDir : Entry → Bool
  | .dir => true
  | .file _ => false

/-- The output directory: `none` when it does not exist, otherwise its
entries as a name-sorted association list. -/
def DirState : Type := Option (List (List Char × Entry))

/-- First binding for name `n` in an entry list. -/
def lookupE : List (List Char × Entry) → List Char → Option Entry
  | [], _ => none
  | (m, w) :: rest, n => if n = m then some w else lookupE rest n

/-- Look an entry up in a (possibly absent) directory. -/
def lookupD (d : DirState) (n : List Char) : Option Entry :=
  match d with
  | none => none
  | some es => lookupE es n

/-- Insert (or overwrite) the binding for `n`, keeping the list name-sorted. -/
def insertE : List (List Char × Entry) → List Char → Entry → List (List Char × Entry)
  | [], n, v => [(n, v)]
  | (m, w) :: rest, n, v =>
    if n = m then (n, v) :: rest
    else if lexLe n m then (n, v) :: (m, w) :: rest
    else (m, w) :: insertE rest n v

/-- A run error: the diagnostic message and the directory state at failure
(the files already on disk when the run aborted). -/
def RunError : Type := List Char × DirState

/-- Models `writeFile`: ensure the directory exists (`os.MkdirAll`), normalize line
endings to LF, then write the full contents, replacing any existing file;
writing over an existing directory entry fails. -/
def writeFileToDir (d : DirState) (n : List Char) (contents : List Char) :
    Except RunError DirState :=
  let contents := replaceAllCRLF contents
  let es := d.getD []
  match lookupE es n with
  | some Entry.dir => .error ("open: is a directory".toList, d)
  | _ => .ok (some (insertE es n (Entry.file contents)))

/-- Models `removeGeneratedSchemas`: a missing directory is a no-op; otherwise every
non-directory direct entry whose name ends in `.schema.yaml` is deleted. -/
def removeGeneratedSchemas (d : DirState) : DirState :=
  match d with
  | none => none
  | some es => some (es.filter fun e => e.2.isDir || !(hasSuffixB e.1 schemaFileSuffix))

/-- Models `writeKustomization`: write the index manifest listing `resources`. -/
def writeKustomization (d : DirState) (resources : List (List Char)) :
    Except RunError DirState :=
  writeFileToDir d kustomizationFileName (kustomizationContent resources)

/-- The per-file loop of `generateAll`: read each input (modelled as the pair
of its path and raw contents), derive the name, synthesize and write the
manifest, and record the written base name. -/
def generateLoop : DirState → List (List Char × List Char) → List (List Char) →
    Except RunError (DirState × List (List Char))
  | d, [], generated => .ok (d, generated)
  | d, (p, proto) :: rest, generated =>
    let name := deriveSchemaNameFromFilename p
    let out := name ++ schemaFileSuffix
    let manifest := schemaManifest name (normalizeNewlines proto)
    match writeFileToDir d out manifest with
    | .error e => .error e
    | .ok d' => generateLoop d' rest (generated ++ [out])

/-- Models `generateAll`: fail on an empty input set, clear stale outputs, write a
manifest per input, then write the index over the sorted recorded names. -/
def generateAll (pubsubFiles : List (List Char × List Char)) (outputDir : DirState) :
    Except RunError DirState :=
  if pubsubFiles = [] then .error ("no pubsub proto files found".toList, outputDir)
  else
    let d := removeGeneratedSchemas outputDir
    match generateLoop d pubsubFiles [] with
    | .error e => .error e
    | .ok (d', generated) => writeKustomization d' (sortStrings generated)

/-- A file's stat result: a regular file, a directory, or another kind of
entry (`os.Stat` failures are `none`). -/
inductive StatResult where
  | regular : StatResult
  | directory : StatResult
  | other : StatResult
deriving DecidableEq

/-- Models `resolveInputs`: from the glob result (an error for a malformed pattern,
otherwise the matched paths), keep the entries that stat as regular files —
stat failures are silently skipped — and sort. -/
def resolveInputs (globResult : Except (List Char) (List (List Char)))
    (stat : List Char → Option StatResult) : Except (List Char) (List (List Char)) :=
  match globResult with
  | .error e => .error e
  | .ok ms =>
    .ok (sortStrings (ms.filter fun m =>
      (match stat m with
       | some StatResult.regular => true
       | _ => false)))

/-! ## Properties of the string order -/

theorem lexLe_refl (a : List Char) : lexLe a a = true := by
  induction a with
  | nil => rfl
  | cons c cs ih => simp [lexLe, ih]

theorem lexLe_total (a b : List Char) : lexLe a b = true ∨ lexLe b a = true := by
  induction a generalizing b with
  | nil => exact Or.inl rfl
  | cons c cs ih =>
    cases b with
    | nil => exact Or.inr rfl
    | cons d ds =>
      rcases lt_trichotomy c d with h | h | h
      · exact Or.inl (by simp [lexLe, h])
      · subst h
        rcases ih ds with h2 | h2
        · exact Or.inl (by simp [lexLe, h2])
        · exact Or.inr (by simp [lexLe, h2])
      · exact Or.inr (by simp [lexLe, h])

theorem lexLe_antisymm : ∀ {a b : List Char},
    lexLe a b = true → lexLe b a = true → a = b := by
  intro a
  induction a with
  | nil =>
    intro b h1 h2
    cases b with
    | nil => rfl
    | cons d ds => simp [lexLe] at h2
  | cons c cs ih =>
    intro b h1 h2
    cases b with
    | nil => simp [lexLe] at h1
    | cons d ds =>
      by_cases hcd : c < d
      · simp [lexLe, hcd, asymm hcd] at h2
      · by_cases hdc : d < c
        · simp [lexLe, hdc, asymm hdc] at h1
        · have hce : c = d := le_antisymm (not_lt.mp hdc) (not_lt.mp hcd)
          subst hce
          simp [lexLe] at h1 h2
          rw [ih h1 h2]

theorem lexLe_trans : ∀ {a b c : List Char},
    lexLe a b = true → lexLe b c = true → lexLe a c = true := by
  intro a
  induction a with
  | nil => intro b c h1 h2; rfl
  | cons x xs ih =>
    intro b c h1 h2
    cases b with
    | nil => simp [lexLe] at h1
    | cons y ys =>
      cases c with
      | nil => simp [lexLe] at h2
      | cons z zs =>
        by_cases hxy : x < y
        · by_cases hyz : y < z
          · simp [lexLe, lt_trans hxy hyz]
          · by_cases hzy : z < y
            · simp [lexLe, hyz, hzy] at h2
            · have : y = z := le_antisymm (not_lt.mp hzy) (not_lt.mp hyz)
              subst this
              simp [lexLe, hxy]
        · by_cases hyx : y < x
          · simp [lexLe, hxy, hyx] at h1
          · have : x = y := le_antisymm (not_lt.mp hyx) (not_lt.mp hxy)
            subst this
            simp [lexLe] at h1
            by_cases hxz : x < z
            · simp [lexLe, hxz]
            · by_cases hzx : z < x
              · simp [lexLe, hxz, hzx] at h2
              · have : x = z := le_antisymm (not_lt.mp hzx) (not_lt.mp hxz)
                subst this
                simp [lexLe] at h2 ⊢
                exact ih h1 h2

instance : IsTotal (List Char) strLe := ⟨lexLe_total⟩

instance : IsTrans (List Char) strLe := ⟨fun _ _ _ => lexLe_trans⟩

instance : IsAntisymm (List Char) strLe := ⟨fun _ _ => lexLe_antisymm⟩

instance : IsRefl (List Char) strLe := ⟨lexLe_refl⟩

theorem sortStrings_perm (l : List (List Char)) : (sortStrings l).Perm l :=
  List.perm_insertionSort _ l

theorem sortStrings_sorted (l : List (List Char)) : List.Sorted strLe (sortStrings l) :=
  List.sorted_insertionSort _ l

theorem sortStrings_eq_of_perm {l1 l2 : List (List Char)} (h : l1.Perm l2) :
    sortStrings l1 = sortStrings l2 :=
  List.eq_of_perm_of_sorted
    ((sortStrings_perm l1).trans (h.trans (sortStrings_perm l2).symm))
    (sortStrings_sorted l1) (sortStrings_sorted l2)

theorem mem_sortStrings {l : List (List Char)} {a : List Char} :
    a ∈ sortStrings l ↔ a ∈ l :=
  (sortStrings_perm l).mem_iff

/-! ## Newline-normalization facts -/

/-- Observation for the spec's trailing-newline contract: the string is
non-empty, ends in a newline, and its penultimate character is not one. -/
def endsWithOneLF (l : List Char) : Bool :=
  match l.reverse with
  | [] => false
  | c :: rest => c == '\n' && !(rest.headD ' ' == '\n')

/-- Observation: does the string contain a CRLF sequence anywhere? -/
def containsCRLF : List Char → Bool
  | '\r' :: '\n' :: _ => true
  | _ :: rest => containsCRLF rest
  | [] => false

theorem dropWhile_headD_not (p : Char → Bool) (d : Char) :
    ∀ l : List Char, l.dropWhile p = [] ∨ p ((l.dropWhile p).headD d) = false := by
  intro l
  induction l with
  | nil => exact Or.inl rfl
  | cons c cs ih =>
    by_cases h : p c
    · simpa [List.dropWhile_cons, h] using ih
    · right
      simp [List.dropWhile_cons, h]

theorem mem_replaceAllCRLF {c : Char} :
    ∀ {s : List Char}, c ∈ replaceAllCRLF s → c ∈ s ∨ c = '\n' := by
  intro s
  induction s using replaceAllCRLF.induct with
  | case1 rest ih =>
    intro h
    rw [replaceAllCRLF.eq_1] at h
    rcases List.mem_cons.mp h with h | h
    · exact Or.inr h
    · rcases ih h with h2 | h2
      · exact Or.inl (by simp [h2])
      · exact Or.inr h2
  | case2 c0 rest hne ih =>
    intro h
    rw [replaceAllCRLF.eq_2 c0 rest hne] at h
    rcases List.mem_cons.mp h with h | h
    · exact Or.inl (h ▸ List.mem_cons_self _ _)
    · rcases ih h with h2 | h2
      · exact Or.inl (List.mem_cons_of_mem _ h2)
      · exact Or.inr h2
  | case3 =>
    intro h
    simp [replaceAllCRLF] at h

theorem mem_trimRightLF {c : Char} {l : List Char} (h : c ∈ trimRightLF l) : c ∈ l := by
  unfold trimRightLF at h
  rw [List.mem_reverse] at h
  have := (List.dropWhile_sublist (l := l.reverse) (p := fun c => c == '\n')).subset h
  simpa using this

theorem containsCRLF_eq_false :
    ∀ {l : List Char}, (∀ c ∈ l, c ≠ '\r') → containsCRLF l = false := by
  intro l
  induction l using containsCRLF.induct with
  | case1 rest =>
    intro h
    exact absurd rfl (h '\r' (List.mem_cons_self _ _))
  | case2 c rest hne ih =>
    intro h
    rw [containsCRLF.eq_2 c rest hne]
    exact ih fun x hx => h x (List.mem_cons_of_mem _ hx)
  | case3 => intro _; rfl

theorem endsWithOneLF_normalizeNewlines (s : List Char) :
    endsWithOneLF (normalizeNewlines s) = true := by
  have key := dropWhile_headD_not (fun c => c == '\n') ' ' (replaceAllCRLF s).reverse
  unfold normalizeNewlines trimRightLF endsWithOneLF
  rw [List.reverse_append]
  simp only [List.reverse_cons, List.reverse_nil, List.nil_append, List.reverse_reverse]
  rcases key with h | h
  · rw [h]; rfl
  · simp only [List.headD_eq_head?_getD] at h ⊢
    simp [h]

theorem mem_normalizeNewlines {c : Char} {s : List Char}
    (h : c ∈ normalizeNewlines s) : c ∈ s ∨ c = '\n' := by
  unfold normalizeNewlines at h
  rcases List.mem_append.mp h with h1 | h1
  · exact mem_replaceAllCRLF (mem_trimRightLF h1)
  · simp at h1
    exact Or.inr h1

/-- C3 (amended): for every input, `normalizeNewlines` returns a string
ending with exactly one trailing newline (all trailing `\n` stripped, one
appended); and whenever the input contains no carriage return at all, the
result contains no CRLF sequence.  (The unconditional no-CRLF contract of
the claim fails: a bare `\r` before end-of-input yields `"\r\n"`.) -/
theorem c3_normalizeNewlines_contract (s : List Char) :
    endsWithOneLF (normalizeNewlines s) = true ∧
    ((∀ c ∈ s, c ≠ '\r') → containsCRLF (normalizeNewlines s) = false) := by
  refine ⟨endsWithOneLF_normalizeNewlines s, fun h => ?_⟩
  apply containsCRLF_eq_false
  intro c hc
  rcases mem_normalizeNewlines hc with h1 | h1
  · exact h c h1
  · subst h1; decide

/-- C3 counterexample: on input `"\r"` the normalized result is `"\r\n"`,
which contains a CRLF sequence, refuting the claim that the result never
contains CRLF. -/
theorem c3_counterexample :
    normalizeNewlines ['\r'] = ['\r', '\n'] ∧
    containsCRLF (normalizeNewlines ['\r']) = true := by decide

/-- Witness for C3 (amended) at the concrete input `"a"`. -/
theorem c3_witness :
    endsWithOneLF (normalizeNewlines ("a".toList)) = true ∧
    containsCRLF (normalizeNewlines ("a".toList)) = false :=
  ⟨(c3_normalizeNewlines_contract ("a".toList)).1,
   (c3_normalizeNewlines_contract ("a".toList)).2 (by decide)⟩

/-! ## Split/join on newlines -/

theorem splitOnLF_ne_nil (s : List Char) : splitOnLF s ≠ [] := by
  cases s with
  | nil => simp [splitOnLF]
  | cons c cs =>
    unfold splitOnLF
    by_cases h : c = '\n'
    · simp [h]
    · simp only [h, if_false]
      cases splitOnLF cs <;> simp

theorem splitOnLF_cons_lf (rest : List Char) :
    splitOnLF ('\n' :: rest) = [] :: splitOnLF rest := rfl

theorem splitOnLF_cons_ne {c : Char} (rest : List Char) (h : ¬ c = '\n') :
    splitOnLF (c :: rest) =
      (match splitOnLF rest with
       | [] => [[c]]
       | l :: ls => (c :: l) :: ls) := by
  rw [splitOnLF.eq_2]
  simp [h]

theorem splitOnLF_cons_of_split {c : Char} {rest l : List Char} {ls : List (List Char)}
    (h : ¬ c = '\n') (hs : splitOnLF rest = l :: ls) :
    splitOnLF (c :: rest) = (c :: l) :: ls := by
  rw [splitOnLF_cons_ne rest h, hs]

theorem joinLF_cons_cons (l l2 : List Char) (ls : List (List Char)) :
    joinLF (l :: l2 :: ls) = l ++ '\n' :: joinLF (l2 :: ls) := rfl

theorem joinLF_splitOnLF (s : List Char) : joinLF (splitOnLF s) = s := by
  induction s with
  | nil => rfl
  | cons c cs ih =>
    by_cases h : c = '\n'
    · subst h
      rw [splitOnLF_cons_lf]
      cases hs : splitOnLF cs with
      | nil => exact absurd hs (splitOnLF_ne_nil cs)
      | cons l ls =>
        rw [hs] at ih
        rw [joinLF_cons_cons]
        simpa using ih
    · cases hs : splitOnLF cs with
      | nil => exact absurd hs (splitOnLF_ne_nil cs)
      | cons l ls =>
        rw [hs] at ih
        rw [splitOnLF_cons_of_split h hs]
        cases ls with
        | nil =>
          have hl : joinLF [l] = l := rfl
          rw [hl] at ih
          show c :: l = c :: cs
          rw [ih]
        | cons l2 ls2 =>
          rw [joinLF_cons_cons] at ih ⊢
          rw [← ih]
          simp

theorem splitOnLF_no_lf (s : List Char) : ∀ l ∈ splitOnLF s, '\n' ∉ l := by
  induction s with
  | nil => simp [splitOnLF]
  | cons c cs ih =>
    by_cases h : c = '\n'
    · subst h
      rw [splitOnLF_cons_lf]
      simpa using ih
    · cases hs : splitOnLF cs with
      | nil => exact absurd hs (splitOnLF_ne_nil cs)
      | cons l ls =>
        rw [hs] at ih
        rw [splitOnLF_cons_of_split h hs]
        intro x hx
        rcases List.mem_cons.mp hx with h1 | h1
        · subst h1
          intro hmem
          rcases List.mem_cons.mp hmem with h2 | h2
          · exact h h2.symm
          · exact ih l (List.mem_cons_self _ _) h2
        · exact ih x (List.mem_cons_of_mem _ h1)

theorem splitOnLF_single {l : List Char} (h : '\n' ∉ l) : splitOnLF l = [l] := by
  induction l with
  | nil => rfl
  | cons c cs ih =>
    have hc : ¬ c = '\n' := fun hh => h (hh ▸ List.mem_cons_self _ _)
    have hcs : '\n' ∉ cs := fun hh => h (List.mem_cons_of_mem _ hh)
    rw [splitOnLF_cons_of_split hc (ih hcs)]

theorem splitOnLF_append {l : List Char} (t : List Char) (h : '\n' ∉ l) :
    splitOnLF (l ++ '\n' :: t) = l :: splitOnLF t := by
  induction l with
  | nil => simp [splitOnLF_cons_lf]
  | cons c cs ih =>
    have hc : ¬ c = '\n' := fun hh => h (hh ▸ List.mem_cons_self _ _)
    have hcs : '\n' ∉ cs := fun hh => h (List.mem_cons_of_mem _ hh)
    show splitOnLF (c :: (cs ++ '\n' :: t)) = (c :: cs) :: splitOnLF t
    rw [splitOnLF_cons_of_split hc (ih hcs)]

theorem splitOnLF_joinLF : ∀ (ls : List (List Char)), ls ≠ [] →
    (∀ l ∈ ls, '\n' ∉ l) → splitOnLF (joinLF ls) = ls := by
  intro ls
  induction ls with
  | nil => intro h; exact absurd rfl h
  | cons l ls2 ih =>
    intro _ h
    cases ls2 with
    | nil =>
      show splitOnLF (joinLF [l]) = [l]
      exact splitOnLF_single (h l (List.mem_cons_self _ _))
    | cons l2 ls3 =>
      rw [joinLF_cons_cons]
      rw [splitOnLF_append _ (h l (List.mem_cons_self _ _))]
      rw [ih (by simp) fun x hx => h x (List.mem_cons_of_mem _ hx)]

/-! ## The round-trip inverse of indentation -/

/-- Modelled from the spec: the inverse operation the round-trip property
speaks about — "stripping exactly the 4-space indent from every line" —
which is not itself part of the source.  It drops `indent.length` characters
from every line of the block. -/
def stripIndentForYAMLLiteralBlock (s indent : List Char) : List Char :=
  joinLF ((splitOnLF s).map fun line => line.drop indent.length)

theorem strip_indent_of_indent (t ind : List Char) (hind : '\n' ∉ ind) :
    stripIndentForYAMLLiteralBlock (indentForYAMLLiteralBlock t ind) ind = t := by
  unfold stripIndentForYAMLLiteralBlock indentForYAMLLiteralBlock
  have h1 : ((splitOnLF t).map fun line => if line = [] then ind else ind ++ line) ≠ [] := by
    simpa using splitOnLF_ne_nil t
  have h2 : ∀ l ∈ (splitOnLF t).map fun line => if line = [] then ind else ind ++ line,
      '\n' ∉ l := by
    intro l hl
    rcases List.mem_map.mp hl with ⟨line, hline, rfl⟩
    by_cases hb : line = []
    · simpa [hb] using hind
    · simp only [hb, if_false]
      intro hmem
      rcases List.mem_append.mp hmem with hm | hm
      · exact hind hm
      · exact splitOnLF_no_lf t line hline hm
  rw [splitOnLF_joinLF _ h1 h2, List.map_map]
  have h3 : ∀ line ∈ splitOnLF t,
      ((fun l : List Char => l.drop ind.length) ∘
        fun l : List Char => if l = [] then ind else ind ++ l) line = line := by
    intro line hline
    by_cases hb : line = []
    · simp [hb, List.drop_length]
    · simp only [Function.comp_apply, hb, if_false]
      exact List.drop_left ind line
  rw [List.map_congr_left h3]
  rw [show (List.map (fun a : List Char => a) (splitOnLF t)) = splitOnLF t from
    List.map_id' (splitOnLF t)]
  exact joinLF_splitOnLF t

/-- C4: normalizing an arbitrary input and indenting it for the YAML
literal block, then stripping the fixed 4-space indent from every line,
recovers exactly the newline-normalized form of the original text —
indentation stripping is an exact inverse of indentation adding. -/
theorem c4_indent_roundtrip (s : List Char) :
    stripIndentForYAMLLiteralBlock
        (indentForYAMLLiteralBlock (normalizeNewlines s) ("    ".toList)) ("    ".toList) =
      normalizeNewlines s :=
  strip_indent_of_indent (normalizeNewlines s) ("    ".toList) (by decide)

/-! ## Name derivation -/

/-- The character set the spec's derivation property quantifies over:
ASCII alphanumerics, `.`, and `_`. -/
def validIdentChar (c : Char) : Bool :=
  (decide (48 ≤ c.toNat) && decide (c.toNat ≤ 57)) ||
  (decide (65 ≤ c.toNat) && decide (c.toNat ≤ 90)) ||
  (decide (97 ≤ c.toNat) && decide (c.toNat ≤ 122)) ||
  c == '.' || c == '_'

theorem charToNat_ofNat {n : Nat} (h : n < 55296) : (Char.ofNat n).toNat = n := by
  unfold Char.ofNat
  rw [dif_pos (Or.inl h)]
  rfl

theorem toLower_cases (c : Char) :
    (65 ≤ c.toNat ∧ c.toNat ≤ 90 ∧ (Char.toLower c).toNat = c.toNat + 32) ∨
    (¬(65 ≤ c.toNat ∧ c.toNat ≤ 90) ∧ Char.toLower c = c) := by
  by_cases h : 65 ≤ c.toNat ∧ c.toNat ≤ 90
  · left
    refine ⟨h.1, h.2, ?_⟩
    show (if c.toNat ≥ 65 ∧ c.toNat ≤ 90 then Char.ofNat (c.toNat + 32) else c).toNat = _
    rw [if_pos ⟨h.1, h.2⟩, charToNat_ofNat (by omega)]
  · right
    refine ⟨h, ?_⟩
    show (if c.toNat ≥ 65 ∧ c.toNat ≤ 90 then Char.ofNat (c.toNat + 32) else c) = c
    rw [if_neg h]

/-- The per-character effect of the derivation pipeline after the suffix is
stripped: lowercase, then `.` to `-`, then `_` to `-`. -/
def derivedChar (c : Char) : Char :=
  let x := Char.toLower c
  let y := if x = '.' then '-' else x
  if y = '_' then '-' else y

theorem charNe_of_toNat_ne {x y : Char} (h : x.toNat ≠ y.toNat) : x ≠ y :=
  fun hxy => h (congrArg Char.toNat hxy)

theorem derivedChar_ne_dot (c : Char) : derivedChar c ≠ '.' := by
  simp only [derivedChar]
  by_cases h1 : Char.toLower c = '.'
  · rw [if_pos h1]
    decide
  · rw [if_neg h1]
    by_cases h2 : Char.toLower c = '_'
    · rw [if_pos h2]
      decide
    · rw [if_neg h2]
      exact h1

theorem derivedChar_ne_underscore (c : Char) : derivedChar c ≠ '_' := by
  simp only [derivedChar]
  by_cases h1 : Char.toLower c = '.'
  · rw [if_pos h1]
    decide
  · rw [if_neg h1]
    by_cases h2 : Char.toLower c = '_'
    · rw [if_pos h2]
      decide
    · rw [if_neg h2]
      exact h2

theorem derivedChar_not_upper (c : Char) :
    ¬(65 ≤ (derivedChar c).toNat ∧ (derivedChar c).toNat ≤ 90) := by
  simp only [derivedChar]
  by_cases h1 : Char.toLower c = '.'
  · rw [if_pos h1]
    decide
  · rw [if_neg h1]
    by_cases h2 : Char.toLower c = '_'
    · rw [if_pos h2]
      decide
    · rw [if_neg h2]
      rcases toLower_cases c with ⟨_, _, h3⟩ | ⟨h3, h4⟩
      · omega
      · rw [h4]
        exact h3

theorem derivedChar_ne_slash {c : Char} (h : c ≠ '/') : derivedChar c ≠ '/' := by
  simp only [derivedChar]
  by_cases h1 : Char.toLower c = '.'
  · rw [if_pos h1]
    decide
  · rw [if_neg h1]
    by_cases h2 : Char.toLower c = '_'
    · rw [if_pos h2]
      decide
    · rw [if_neg h2]
      rcases toLower_cases c with ⟨_, _, h3⟩ | ⟨_, h4⟩
      · apply charNe_of_toNat_ne
        have h47 : ('/' : Char).toNat = 47 := rfl
        omega
      · rw [h4]
        exact h

theorem validIdentChar_ne_slash {c : Char} (h : validIdentChar c = true) : c ≠ '/' := by
  intro heq
  subst heq
  simp [validIdentChar] at h

theorem trimSuffix_append (a b : List Char) : trimSuffix (a ++ b) b = a := by
  have hlen : (a ++ b).length - b.length = a.length := by simp
  have h1 : b.length ≤ (a ++ b).length := by simp
  have h2 : (a ++ b).drop ((a ++ b).length - b.length) = b := by
    rw [hlen]
    exact List.drop_left a b
  unfold trimSuffix
  rw [if_pos (show hasSuffixB (a ++ b) b = true by unfold hasSuffixB; simp [h1, h2])]
  rw [hlen]
  exact List.take_left a b

theorem mem_of_hasSuffixB {s sfx : List Char} {c : Char}
    (h : hasSuffixB s sfx = true) (hc : c ∈ sfx) : c ∈ s := by
  unfold hasSuffixB at h
  rw [Bool.and_eq_true] at h
  rcases h with ⟨_, h2⟩
  have := of_decide_eq_true h2
  rw [← this] at hc
  exact (List.drop_subset _ s) hc

theorem trimSuffix_of_missing_char {s sfx : List Char} {c : Char}
    (hc : c ∈ sfx) (hs : c ∉ s) : trimSuffix s sfx = s := by
  unfold trimSuffix
  cases h : hasSuffixB s sfx with
  | false => rfl
  | true => exact absurd (mem_of_hasSuffixB h hc) hs

theorem takeWhile_all {p : Char → Bool} :
    ∀ {l : List Char}, (∀ c ∈ l, p c = true) → l.takeWhile p = l := by
  intro l h
  exact List.takeWhile_eq_self_iff.mpr h

theorem basename_of_no_slash {l : List Char} (hne : l ≠ [])
    (h : ∀ c ∈ l, c ≠ '/') : basename l = l := by
  unfold basename
  rw [if_neg hne]
  have h1 : l.reverse.dropWhile (fun c => c == '/') = l.reverse := by
    cases hr : l.reverse with
    | nil => rfl
    | cons c cs =>
      have hc : c ∈ l := by
        rw [← List.mem_reverse, hr]
        exact List.mem_cons_self _ _
      rw [List.dropWhile_cons, if_neg]
      simp [h c hc]
  simp only [h1, List.reverse_reverse]
  have h2 : l.reverse.takeWhile (fun c => !(c == '/')) = l.reverse := by
    apply takeWhile_all
    intro c hc
    rw [List.mem_reverse] at hc
    simp [h c hc]
  simp only [h2, List.reverse_reverse]
  rw [if_neg hne]

theorem derive_eq_map_derivedChar {f ident : List Char}
    (hbase : basename f = ident ++ pubsubSuffix) :
    deriveSchemaNameFromFilename f = ident.map derivedChar := by
  simp only [deriveSchemaNameFromFilename, toLowerStr, replaceAllChar]
  rw [hbase, trimSuffix_append, List.map_map, List.map_map]
  rfl

theorem derived_fixpoint {out : List Char} (hne : out ≠ [])
    (hns : ∀ c ∈ out, c ≠ '/') (hnd : ∀ c ∈ out, c ≠ '.')
    (hnu : ∀ c ∈ out, c ≠ '_')
    (hnup : ∀ c ∈ out, ¬(65 ≤ c.toNat ∧ c.toNat ≤ 90)) :
    deriveSchemaNameFromFilename out = out := by
  simp only [deriveSchemaNameFromFilename, toLowerStr, replaceAllChar]
  rw [basename_of_no_slash hne hns]
  rw [trimSuffix_of_missing_char (show '.' ∈ pubsubSuffix by decide)
    (fun hmem => hnd '.' hmem rfl)]
  have hlow : out.map Char.toLower = out := by
    rw [List.map_congr_left (fun c hc => ?_), List.map_id' out]
    rcases toLower_cases c with ⟨ha, hb, _⟩ | ⟨_, hfix⟩
    · exact absurd ⟨ha, hb⟩ (hnup c hc)
    · exact hfix
  rw [hlow]
  have hdot : (out.map fun c => if c = '.' then '-' else c) = out := by
    rw [List.map_congr_left (fun c hc => ?_), List.map_id' out]
    rw [if_neg (hnd c hc)]
  rw [hdot]
  rw [List.map_congr_left (fun c hc => ?_), List.map_id' out]
  rw [if_neg (hnu c hc)]

/-- C2 (amended): for every filename whose base name consists of a
non-empty raw identifier of alphanumerics, `.`, and `_`, followed by the
`.pubsub.proto` suffix, name derivation is deterministic and idempotent:
applying the derivation to its own output returns it unchanged.  (The claim
as stated also admits the empty raw identifier, where idempotence fails.) -/
theorem c2_derive_deterministic_idempotent (f ident : List Char)
    (hbase : basename f = ident ++ pubsubSuffix)
    (hne : ident ≠ [])
    (hchars : ∀ c ∈ ident, validIdentChar c = true) :
    deriveSchemaNameFromFilename f = deriveSchemaNameFromFilename f ∧
    deriveSchemaNameFromFilename (deriveSchemaNameFromFilename f) =
      deriveSchemaNameFromFilename f := by
  refine ⟨rfl, ?_⟩
  rw [derive_eq_map_derivedChar hbase]
  apply derived_fixpoint
  · simp [hne]
  · intro c hc
    rcases List.mem_map.mp hc with ⟨a, ha, rfl⟩
    exact derivedChar_ne_slash (validIdentChar_ne_slash (hchars a ha))
  · intro c hc
    rcases List.mem_map.mp hc with ⟨a, _, rfl⟩
    exact derivedChar_ne_dot a
  · intro c hc
    rcases List.mem_map.mp hc with ⟨a, _, rfl⟩
    exact derivedChar_ne_underscore a
  · intro c hc
    rcases List.mem_map.mp hc with ⟨a, _, rfl⟩
    exact derivedChar_not_upper a

/-- C2 counterexample: the filename `".pubsub.proto"` has the empty raw
identifier — vacuously composed of the allowed characters — yet derivation is
not idempotent there: it derives `""`, and deriving again yields `"-"`. -/
theorem c2_counterexample :
    basename (".pubsub.proto".toList) = ([] : List Char) ++ pubsubSuffix ∧
    (∀ c ∈ ([] : List Char), validIdentChar c = true) ∧
    deriveSchemaNameFromFilename (deriveSchemaNameFromFilename (".pubsub.proto".toList)) ≠
      deriveSchemaNameFromFilename (".pubsub.proto".toList) := by
  refine ⟨by decide, by simp, by decide⟩

/-- Witness for C2 (amended) at the spec's own example filename. -/
theorem c2_witness :
    deriveSchemaNameFromFilename ("coreapp.test.v1.TestEvent.pubsub.proto".toList) =
      deriveSchemaNameFromFilename ("coreapp.test.v1.TestEvent.pubsub.proto".toList) ∧
    deriveSchemaNameFromFilename
        (deriveSchemaNameFromFilename ("coreapp.test.v1.TestEvent.pubsub.proto".toList)) =
      deriveSchemaNameFromFilename ("coreapp.test.v1.TestEvent.pubsub.proto".toList) :=
  c2_derive_deterministic_idempotent
    "coreapp.test.v1.TestEvent.pubsub.proto".toList
    "coreapp.test.v1.TestEvent".toList
    (by decide) (by decide) (by decide)

/-! ## End-to-end and empty-input behaviour -/

/-- C1: on an input directory holding exactly
`coreapp.test.v1.TestEvent.pubsub.proto` with content `message TestEvent \x7b\x7d\n`,
a run with the default glob into a fresh output directory produces exactly
`coreapp-test-v1-testevent.schema.yaml` — the fixed header with
`name: coreapp-test-v1-testevent` followed by the 4-space-indented definition
block ending in an indented blank line with no trailing newline — and
`kustomization.yaml` whose resources list contains exactly that file. -/
theorem c1_end_to_end :
    generateAll
      [("gen/proto/infra/pubsub/coreapp.test.v1.TestEvent.pubsub.proto".toList,
        "message TestEvent \x7b\x7d\n".toList)] none =
    .ok (some
      [("coreapp-test-v1-testevent.schema.yaml".toList,
        Entry.file ("apiVersion: pubsub.cnrm.cloud.google.com/v1beta1\nkind: PubSubSchema\nmetadata:\n  name: coreapp-test-v1-testevent\nspec:\n  type: PROTOCOL_BUFFER\n  definition: |\n    message TestEvent \x7b\x7d\n    ".toList)),
       ("kustomization.yaml".toList,
        Entry.file ("apiVersion: kustomize.config.k8s.io/v1beta1\nkind: Kustomization\n\nresources:\n  - coreapp-test-v1-testevent.schema.yaml\n".toList))]) := by
  rfl

/-- C5: with an empty resolved input set the run fails — with the fixed
diagnostic, and with the directory state it was given returned untouched in
the error: the emptiness check fires before stale-output cleanup, so no file
is written and no pre-existing `*.schema.yaml` is removed. -/
theorem c5_empty_input_set (d : DirState) :
    generateAll [] d = .error ("no pubsub proto files found".toList, d) := rfl

/-! ## Sorted association-list invariants of the directory model -/

/-- Strict (irreflexive) name order. -/
def strLt (a b : List Char) : Prop := lexLe a b = true ∧ a ≠ b

/-- The canonical-form invariant: entries strictly sorted by name (hence
duplicate-free), as `os.ReadDir` presents a real directory. -/
def StrictSorted (es : List (List Char × Entry)) : Prop :=
  List.Pairwise (fun a b => strLt a.1 b.1) es

/-- A well-formed directory state: absent, or in canonical sorted form. -/
def ValidDir : DirState → Prop
  | none => True
  | some es => StrictSorted es

theorem lookupE_cons (m : List Char) (w : Entry) (tl : List (List Char × Entry))
    (k : List Char) :
    lookupE ((m, w) :: tl) k = if k = m then some w else lookupE tl k := rfl

theorem lookupE_insertE (es : List (List Char × Entry)) (n : List Char) (v : Entry)
    (k : List Char) :
    lookupE (insertE es n v) k = if k = n then some v else lookupE es k := by
  induction es with
  | nil =>
    show lookupE [(n, v)] k = _
    simp only [lookupE_cons]
  | cons hd tl ih =>
    obtain ⟨m, w⟩ := hd
    unfold insertE
    by_cases h1 : n = m
    · subst h1
      rw [if_pos rfl]
      simp only [lookupE_cons]
      by_cases h2 : k = n <;> simp [h2]
    · rw [if_neg h1]
      by_cases h2 : lexLe n m
      · rw [if_pos h2]
        simp only [lookupE_cons]
      · rw [if_neg h2]
        simp only [lookupE_cons, ih]
        by_cases h3 : k = m
        · subst h3
          have hkn : ¬ k = n := fun hh => h1 hh.symm
          simp [hkn]
        · simp [h3]

theorem mem_insertE : ∀ {es : List (List Char × Entry)} {n : List Char} {v : Entry}
    {x : List Char × Entry}, x ∈ insertE es n v → x.1 = n ∨ x ∈ es := by
  intro es
  induction es with
  | nil =>
    intro n v x h
    rcases List.mem_cons.mp h with h | h
    · exact Or.inl (by rw [h])
    · simp at h
  | cons hd tl ih =>
    intro n v x h
    obtain ⟨m, w⟩ := hd
    unfold insertE at h
    by_cases h1 : n = m
    · subst h1
      rw [if_pos rfl] at h
      rcases List.mem_cons.mp h with h | h
      · exact Or.inl (by rw [h])
      · exact Or.inr (List.mem_cons_of_mem _ h)
    · rw [if_neg h1] at h
      by_cases h2 : lexLe n m
      · rw [if_pos h2] at h
        rcases List.mem_cons.mp h with h | h
        · exact Or.inl (by rw [h])
        · exact Or.inr h
      · rw [if_neg h2] at h
        rcases List.mem_cons.mp h with h | h
        · exact Or.inr (by rw [h]; exact List.mem_cons_self _ _)
        · rcases ih h with h3 | h3
          · exact Or.inl h3
          · exact Or.inr (List.mem_cons_of_mem _ h3)

theorem strictSorted_insertE {es : List (List Char × Entry)} (h : StrictSorted es)
    (n : List Char) (v : Entry) : StrictSorted (insertE es n v) := by
  induction es with
  | nil => simp [insertE, StrictSorted]
  | cons hd tl ih =>
    obtain ⟨m, w⟩ := hd
    have h' := List.pairwise_cons.mp h
    unfold insertE
    by_cases h1 : n = m
    · subst h1
      rw [if_pos rfl]
      exact List.pairwise_cons.mpr ⟨h'.1, h'.2⟩
    · rw [if_neg h1]
      by_cases h2 : lexLe n m
      · rw [if_pos h2]
        refine List.pairwise_cons.mpr ⟨?_, h⟩
        intro x hx
        rcases List.mem_cons.mp hx with h3 | h3
        · rw [h3]
          exact ⟨h2, h1⟩
        · have hm := h'.1 x h3
          refine ⟨lexLe_trans h2 hm.1, ?_⟩
          intro heq
          exact hm.2 (lexLe_antisymm hm.1 (heq ▸ h2))
      · rw [if_neg h2]
        refine List.pairwise_cons.mpr ⟨?_, ih h'.2⟩
        intro x hx
        rcases mem_insertE hx with h3 | h3
        · rw [h3]
          rcases lexLe_total m n with h4 | h4
          · exact ⟨h4, fun hh => h1 hh.symm⟩
          · exact absurd h4 h2
        · exact h'.1 x h3

theorem lookupE_eq_none {es : List (List Char × Entry)} {n : List Char}
    (h : ∀ x ∈ es, x.1 ≠ n) : lookupE es n = none := by
  induction es with
  | nil => rfl
  | cons hd tl ih =>
    obtain ⟨m, w⟩ := hd
    unfold lookupE
    rw [if_neg fun hh => h (m, w) (List.mem_cons_self _ _) hh.symm]
    exact ih fun x hx => h x (List.mem_cons_of_mem _ hx)

theorem lookupE_mem : ∀ {es : List (List Char × Entry)} {n : List Char} {v : Entry},
    lookupE es n = some v → (n, v) ∈ es := by
  intro es
  induction es with
  | nil => intro n v h; simp [lookupE] at h
  | cons hd tl ih =>
    intro n v h
    obtain ⟨m, w⟩ := hd
    unfold lookupE at h
    by_cases h1 : n = m
    · subst h1
      rw [if_pos rfl] at h
      have : w = v := by injection h
      subst this
      exact List.mem_cons_self _ _
    · rw [if_neg h1] at h
      exact List.mem_cons_of_mem _ (ih h)

theorem strictSorted_filter {es : List (List Char × Entry)} (h : StrictSorted es)
    (p : List Char × Entry → Bool) : StrictSorted (es.filter p) :=
  h.sublist (List.filter_sublist es)

theorem strictSorted_head_lookup {n : List Char} {v : Entry}
    {tl : List (List Char × Entry)} (h : StrictSorted ((n, v) :: tl)) :
    lookupE tl n = none := by
  apply lookupE_eq_none
  intro x hx heq
  exact ((List.pairwise_cons.mp h).1 x hx).2 heq.symm

theorem lookupE_filter {es : List (List Char × Entry)} (h : StrictSorted es)
    (p : List Char × Entry → Bool) (n : List Char) :
    lookupE (es.filter p) n =
      (match lookupE es n with
       | some v => if p (n, v) then some v else none
       | none => none) := by
  induction es with
  | nil => rfl
  | cons hd tl ih =>
    obtain ⟨m, w⟩ := hd
    have h' := List.pairwise_cons.mp h
    rw [List.filter_cons]
    by_cases hk : n = m
    · subst hk
      rw [lookupE_cons, if_pos rfl]
      by_cases hp : p (n, w)
      · rw [if_pos hp, lookupE_cons, if_pos rfl]
        show some w = if p (n, w) = true then some w else none
        rw [if_pos hp]
      · rw [if_neg hp]
        show lookupE (List.filter p tl) n = if p (n, w) = true then some w else none
        rw [if_neg hp, ih h'.2, strictSorted_head_lookup h]
    · rw [lookupE_cons, if_neg hk]
      by_cases hp : p (m, w)
      · rw [if_pos hp, lookupE_cons, if_neg hk]
        exact ih h'.2
      · rw [if_neg hp]
        exact ih h'.2

theorem strictSorted_ext : ∀ {es1 es2 : List (List Char × Entry)},
    StrictSorted es1 → StrictSorted es2 →
    (∀ n, lookupE es1 n = lookupE es2 n) → es1 = es2 := by
  intro es1
  induction es1 with
  | nil =>
    intro es2 _ _ hl
    cases es2 with
    | nil => rfl
    | cons hd2 tl2 =>
      obtain ⟨m, w⟩ := hd2
      have := hl m
      rw [lookupE_cons, if_pos rfl] at this
      simp [lookupE] at this
  | cons hd1 tl1 ih =>
    intro es2 hs1 hs2 hl
    obtain ⟨n, v⟩ := hd1
    cases es2 with
    | nil =>
      have := hl n
      rw [lookupE_cons, if_pos rfl] at this
      simp [lookupE] at this
    | cons hd2 tl2 =>
      obtain ⟨m, w⟩ := hd2
      have hnm : n = m := by
        by_contra hne
        have hv : lookupE ((m, w) :: tl2) n = some v := by
          rw [← hl n, lookupE_cons, if_pos rfl]
        have hw : lookupE ((n, v) :: tl1) m = some w := by
          rw [hl m, lookupE_cons, if_pos rfl]
        rw [lookupE_cons, if_neg hne] at hv
        rw [lookupE_cons, if_neg (fun hh => hne hh.symm)] at hw
        have hmem_v := lookupE_mem hv
        have hmem_w := lookupE_mem hw
        have hlt1 := (List.pairwise_cons.mp hs1).1 (m, w) hmem_w
        have hlt2 := (List.pairwise_cons.mp hs2).1 (n, v) hmem_v
        exact hne (lexLe_antisymm hlt1.1 hlt2.1)
      subst hnm
      have hvw : v = w := by
        have := hl n
        rw [lookupE_cons, if_pos rfl, lookupE_cons, if_pos rfl] at this
        injection this
      subst hvw
      have htl : ∀ k, lookupE tl1 k = lookupE tl2 k := by
        intro k
        by_cases hk : k = n
        · subst hk
          rw [strictSorted_head_lookup hs1, strictSorted_head_lookup hs2]
        · have := hl k
          rw [lookupE_cons, if_neg hk, lookupE_cons, if_neg hk] at this
          exact this
      rw [ih (List.pairwise_cons.mp hs1).2 (List.pairwise_cons.mp hs2).2 htl]

/-! ## Directory operations -/

theorem lookupD_getD (d : DirState) (n : List Char) :
    lookupD d n = lookupE (d.getD []) n := by
  cases d <;> rfl

theorem validDir_some_iff {es : List (List Char × Entry)} :
    ValidDir (some es) ↔ StrictSorted es := Iff.rfl

theorem lookupD_removeGeneratedSchemas (d : DirState) (hv : ValidDir d) (n : List Char) :
    lookupD (removeGeneratedSchemas d) n =
      (match lookupD d n with
       | some e => if e.isDir || !(hasSuffixB n schemaFileSuffix) then some e else none
       | none => none) := by
  cases d with
  | none => rfl
  | some es =>
    show lookupE (es.filter _) n = _
    rw [lookupE_filter hv _ n]
    show _ = (match lookupE es n with
       | some e => if e.isDir || !(hasSuffixB n schemaFileSuffix) then some e else none
       | none => none)
    cases lookupE es n <;> rfl

theorem validDir_removeGeneratedSchemas {d : DirState} (hv : ValidDir d) :
    ValidDir (removeGeneratedSchemas d) := by
  cases d with
  | none => trivial
  | some es => exact strictSorted_filter hv _

/-- C6: stale-output cleanup on a missing directory is a no-op success,
and on an existing directory it removes exactly the non-directory entries
whose names end in `.schema.yaml`: an entry survives it iff it was present
and is a directory or lacks the suffix. -/
theorem c6_remove_generated_schemas (d : DirState) (n : List Char) (e : Entry)
    (hv : ValidDir d) :
    removeGeneratedSchemas none = none ∧
    (lookupD (removeGeneratedSchemas d) n = some e ↔
      lookupD d n = some e ∧
        (e.isDir = true ∨ hasSuffixB n schemaFileSuffix = false)) := by
  refine ⟨rfl, ?_⟩
  rw [lookupD_removeGeneratedSchemas d hv n]
  cases hl : lookupD d n with
  | none => simp
  | some e2 =>
    show (if e2.isDir || !(hasSuffixB n schemaFileSuffix) then some e2 else none) = some e ↔ _
    cases hd : e2.isDir with
    | true =>
      rw [Bool.true_or, if_pos rfl]
      constructor
      · intro h
        exact ⟨h, Or.inl (Option.some.inj h ▸ hd)⟩
      · intro h
        exact h.1
    | false =>
      cases hs : hasSuffixB n schemaFileSuffix with
      | false =>
        rw [Bool.false_or, Bool.not_false, if_pos rfl]
        constructor
        · intro h
          exact ⟨h, Or.inr rfl⟩
        · intro h
          exact h.1
      | true =>
        rw [Bool.false_or, Bool.not_true, if_neg (by simp)]
        constructor
        · intro h
          exact absurd h (by simp)
        · rintro ⟨h1, h2 | h2⟩
          · have he : e2 = e := Option.some.inj h1
            rw [← he] at h2
            rw [h2] at hd
            exact absurd hd (by simp)
          · exact absurd h2 (by simp)

/-- Witness for C6 at a concrete populated directory. -/
theorem c6_witness :
    removeGeneratedSchemas none = none ∧
    (lookupD
        (removeGeneratedSchemas (some
          [("a.schema.yaml".toList, Entry.file ("x".toList)),
           ("b.txt".toList, Entry.file ("y".toList))]))
        "b.txt".toList = some (Entry.file ("y".toList)) ↔
      lookupD (some
          [("a.schema.yaml".toList, Entry.file ("x".toList)),
           ("b.txt".toList, Entry.file ("y".toList))]) ("b.txt".toList) =
          some (Entry.file ("y".toList)) ∧
        ((Entry.file ("y".toList)).isDir = true ∨
          hasSuffixB ("b.txt".toList) schemaFileSuffix = false)) :=
  c6_remove_generated_schemas
    (some [("a.schema.yaml".toList, Entry.file ("x".toList)),
           ("b.txt".toList, Entry.file ("y".toList))])
    "b.txt".toList (Entry.file ("y".toList))
    (by constructor
        · intro b hb
          simp only [List.mem_singleton] at hb
          subst hb
          exact ⟨by decide, by decide⟩
        · constructor
          · intro b hb
            simp at hb
          · exact List.Pairwise.nil)

/-! ## Write operations -/

/-- The name `n` is occupied by a directory in `d`. -/
def dirAt (d : DirState) (n : List Char) : Prop := lookupD d n = some Entry.dir

theorem writeFileToDir_ok {d : DirState} {n c : List Char} (h : ¬ dirAt d n) :
    writeFileToDir d n c =
      .ok (some (insertE (d.getD []) n (Entry.file (replaceAllCRLF c)))) := by
  unfold dirAt at h
  rw [lookupD_getD] at h
  simp only [writeFileToDir]

theorem writeFileToDir_ok_inv {d : DirState} {n c : List Char} {d' : DirState}
    (h : writeFileToDir d n c = .ok d') :
    ¬ dirAt d n ∧
    d' = some (insertE (d.getD []) n (Entry.file (replaceAllCRLF c))) := by
  simp only [writeFileToDir] at h
  cases hl : lookupE (d.getD []) n with
  | none =>
    rw [hl] at h
    refine ⟨?_, ?_⟩
    · unfold dirAt
      rw [lookupD_getD, hl]
      simp
    · injection h with h
      exact h.symm
  | some e =>
    cases e with
    | dir =>
      rw [hl] at h
      exact Except.noConfusion h
    | file cc =>
      rw [hl] at h
      refine ⟨?_, ?_⟩
      · unfold dirAt
        rw [lookupD_getD, hl]
        simp
      · injection h with h
        exact h.symm

theorem validDir_insert (d : DirState) (hv : ValidDir d) (n : List Char) (v : Entry) :
    ValidDir (some (insertE (d.getD []) n v)) := by
  cases d with
  | none =>
    show StrictSorted (insertE [] n v)
    exact strictSorted_insertE List.Pairwise.nil n v
  | some es => exact strictSorted_insertE hv n v

theorem lookupD_after_write {d : DirState} {n c : List Char} {d' : DirState}
    (h : writeFileToDir d n c = .ok d') (k : List Char) :
    lookupD d' k =
      if k = n then some (Entry.file (replaceAllCRLF c)) else lookupD d k := by
  rcases writeFileToDir_ok_inv h with ⟨_, rfl⟩
  show lookupE _ k = _
  rw [lookupE_insertE, lookupD_getD]

/-! ## The generation loop -/

/-- The bytes `generateAll` puts on disk for input `(p, proto)`: the manifest
text, line endings normalized once more by `writeFile`. -/
def manifestFor (p proto : List Char) : List Char :=
  replaceAllCRLF (schemaManifest (deriveSchemaNameFromFilename p) (normalizeNewlines proto))

/-- The content of the last write the loop performs at name `k`, if any
(later inputs overwrite earlier ones that derive the same name). -/
def lastWrite : List (List Char × List Char) → List Char → Option (List Char)
  | [], _ => none
  | (p, proto) :: rest, k =>
    match lastWrite rest k with
    | some m => some m
    | none => if generatedFileName p = k then some (manifestFor p proto) else none

theorem generateLoop_ok_spec : ∀ {fs : List (List Char × List Char)} {d : DirState}
    {gen : List (List Char)} {d' : DirState} {gen' : List (List Char)},
    generateLoop d fs gen = .ok (d', gen') →
    gen' = gen ++ fs.map (fun f => generatedFileName f.1) ∧
    (∀ k, lookupD d' k =
      (match lastWrite fs k with
       | some m => some (Entry.file m)
       | none => lookupD d k)) ∧
    (∀ f ∈ fs, ¬ dirAt d (generatedFileName f.1)) ∧
    (ValidDir d → ValidDir d') := by
  intro fs
  induction fs with
  | nil =>
    intro d gen d' gen' h
    injection h with h
    injection h with h1 h2
    subst h1
    subst h2
    refine ⟨by simp, fun k => rfl, by simp, fun hv => hv⟩
  | cons f rest ih =>
    intro d gen d' gen' h
    obtain ⟨p, proto⟩ := f
    simp only [generateLoop] at h
    cases hw : writeFileToDir d (deriveSchemaNameFromFilename p ++ schemaFileSuffix)
        (schemaManifest (deriveSchemaNameFromFilename p) (normalizeNewlines proto)) with
    | error e =>
      rw [hw] at h
      exact Except.noConfusion h
    | ok d1 =>
      rw [hw] at h
      have hw' : writeFileToDir d (generatedFileName p)
          (schemaManifest (deriveSchemaNameFromFilename p) (normalizeNewlines proto)) =
          .ok d1 := hw
      rcases ih h with ⟨hgen, hlook, hdirs, hvalid⟩
      refine ⟨?_, ?_, ?_, ?_⟩
      · rw [hgen]
        simp [generatedFileName]
      · intro k
        rw [hlook k]
        show _ = (match (match lastWrite rest k with
          | some m => some m
          | none => if generatedFileName p = k then some (manifestFor p proto) else none) with
          | some m => some (Entry.file m)
          | none => lookupD d k)
        cases hlast : lastWrite rest k with
        | some m => rfl
        | none =>
          show lookupD d1 k =
            (match (if generatedFileName p = k then some (manifestFor p proto) else none) with
             | some m => some (Entry.file m)
             | none => lookupD d k)
          rw [lookupD_after_write hw' k]
          by_cases hk : k = generatedFileName p
          · rw [if_pos hk, if_pos hk.symm]
            rfl
          · rw [if_neg hk, if_neg (fun hh => hk hh.symm)]
      · intro g hg
        rcases List.mem_cons.mp hg with h1 | h1
        · subst h1
          exact (writeFileToDir_ok_inv hw').1
        · intro hdir
          by_cases hk : generatedFileName g.1 = generatedFileName p
          · exact (writeFileToDir_ok_inv hw').1 (hk ▸ hdir)
          · apply hdirs g h1
            unfold dirAt at hdir ⊢
            rw [lookupD_after_write hw' _, if_neg hk]
            exact hdir
      · intro hv
        apply hvalid
        rcases writeFileToDir_ok_inv hw' with ⟨_, rfl⟩
        exact validDir_insert d hv _ _

theorem lookupD_some_insertE (d : DirState) (n : List Char) (v : Entry) (k : List Char) :
    lookupD (some (insertE (d.getD []) n v)) k =
      if k = n then some v else lookupD d k := by
  show lookupE _ k = _
  rw [lookupE_insertE, lookupD_getD]

theorem generateLoop_ok_of : ∀ (fs : List (List Char × List Char)) (d : DirState)
    (gen : List (List Char)),
    (∀ f ∈ fs, ¬ dirAt d (generatedFileName f.1)) →
    ∃ d', generateLoop d fs gen =
        .ok (d', gen ++ fs.map (fun f => generatedFileName f.1)) := by
  intro fs
  induction fs with
  | nil =>
    intro d gen _
    exact ⟨d, by simp [generateLoop]⟩
  | cons f rest ih =>
    intro d gen h
    obtain ⟨p, proto⟩ := f
    have hnd : ¬ dirAt d (generatedFileName p) := h (p, proto) (List.mem_cons_self _ _)
    have hw : writeFileToDir d (deriveSchemaNameFromFilename p ++ schemaFileSuffix)
        (schemaManifest (deriveSchemaNameFromFilename p) (normalizeNewlines proto)) =
        .ok (some (insertE (d.getD []) (deriveSchemaNameFromFilename p ++ schemaFileSuffix)
          (Entry.file (replaceAllCRLF (schemaManifest (deriveSchemaNameFromFilename p)
            (normalizeNewlines proto)))))) :=
      writeFileToDir_ok hnd
    have hrest : ∀ g ∈ rest,
        ¬ dirAt (some (insertE (d.getD []) (deriveSchemaNameFromFilename p ++ schemaFileSuffix)
          (Entry.file (replaceAllCRLF (schemaManifest (deriveSchemaNameFromFilename p)
            (normalizeNewlines proto)))))) (generatedFileName g.1) := by
      intro g hg hdir
      unfold dirAt at hdir
      rw [lookupD_some_insertE] at hdir
      by_cases hk : generatedFileName g.1 = deriveSchemaNameFromFilename p ++ schemaFileSuffix
      · rw [if_pos hk] at hdir
        exact Option.noConfusion hdir fun hh => Entry.noConfusion hh
      · rw [if_neg hk] at hdir
        exact h g (List.mem_cons_of_mem _ hg) hdir
    rcases ih _ (gen ++ [deriveSchemaNameFromFilename p ++ schemaFileSuffix]) hrest with ⟨d', hd'⟩
    refine ⟨d', ?_⟩
    simp only [generateLoop]
    rw [hw]
    show generateLoop _ rest (gen ++ [deriveSchemaNameFromFilename p ++ schemaFileSuffix]) = _
    rw [hd']
    simp [generatedFileName]

theorem generateAll_ok_inv {fs : List (List Char × List Char)} {d0 d1 : DirState}
    (h : generateAll fs d0 = .ok d1) :
    fs ≠ [] ∧
    ∃ W, generateLoop (removeGeneratedSchemas d0) fs [] =
        .ok (W, fs.map (fun f => generatedFileName f.1)) ∧
      writeKustomization W
        (sortStrings (fs.map (fun f => generatedFileName f.1))) = .ok d1 := by
  simp only [generateAll] at h
  by_cases hfs : fs = []
  · rw [if_pos hfs] at h
    exact Except.noConfusion h
  · rw [if_neg hfs] at h
    refine ⟨hfs, ?_⟩
    cases hloop : generateLoop (removeGeneratedSchemas d0) fs [] with
    | error e =>
      rw [hloop] at h
      exact Except.noConfusion h
    | ok pr =>
      obtain ⟨W, gens⟩ := pr
      rw [hloop] at h
      have hgens : gens = [] ++ fs.map (fun f => generatedFileName f.1) :=
        (generateLoop_ok_spec hloop).1
      rw [List.nil_append] at hgens
      subst hgens
      exact ⟨W, rfl, h⟩

theorem generatedFileName_ne_kustomization (p : List Char) :
    generatedFileName p ≠ kustomizationFileName := by
  intro h
  have h12 : schemaFileSuffix.length = 12 := rfl
  have h18 : kustomizationFileName.length = 18 := rfl
  have hlen : (deriveSchemaNameFromFilename p).length = 6 := by
    have hl := congrArg List.length h
    rw [generatedFileName, List.length_append, h12, h18] at hl
    omega
  have hdrop : schemaFileSuffix =
      kustomizationFileName.drop (deriveSchemaNameFromFilename p).length := by
    rw [← h, generatedFileName]
    exact (List.drop_left _ _).symm
  rw [hlen] at hdrop
  exact absurd hdrop (by decide)

theorem lastWrite_kustomization_none :
    ∀ (fs : List (List Char × List Char)),
      lastWrite fs kustomizationFileName = none := by
  intro fs
  induction fs with
  | nil => rfl
  | cons f rest ih =>
    obtain ⟨p, proto⟩ := f
    show (match lastWrite rest kustomizationFileName with
      | some m => some m
      | none => if generatedFileName p = kustomizationFileName
                then some (manifestFor p proto) else none) = none
    rw [ih, if_neg (generatedFileName_ne_kustomization p)]

/-- C7: input resolution propagates a malformed-glob error unchanged; on
a successful glob it returns exactly the matched paths whose stat reports a
regular file — entries whose stat fails are silently skipped, directories
and special files are excluded — in lexicographically sorted order. -/
theorem c7_resolve_inputs (ms : List (List Char)) (stat : List Char → Option StatResult)
    (e : List Char) (p : List Char) :
    resolveInputs (.error e) stat = .error e ∧
    ∃ files, resolveInputs (.ok ms) stat = .ok files ∧
      List.Sorted strLe files ∧
      (p ∈ files ↔ p ∈ ms ∧ stat p = some StatResult.regular) := by
  refine ⟨rfl, ?_⟩
  refine ⟨_, rfl, sortStrings_sorted _, ?_⟩
  rw [mem_sortStrings, List.mem_filter]
  constructor
  · rintro ⟨h1, h2⟩
    refine ⟨h1, ?_⟩
    cases hs : stat p with
    | none =>
      rw [hs] at h2
      simp at h2
    | some r =>
      cases r with
      | regular => rfl
      | directory =>
        rw [hs] at h2
        simp at h2
      | other =>
        rw [hs] at h2
        simp at h2
  · rintro ⟨h1, h2⟩
    refine ⟨h1, ?_⟩
    rw [h2]

/-- C8: the index manifest is invariant under any permutation of the
input enumeration — two successful runs over permuted input lists leave
identical `kustomization.yaml` contents — and the resources are listed in
lexicographically sorted order (names are sorted before the index is
written). -/
theorem c8_index_permutation_invariant {files1 files2 : List (List Char × List Char)}
    {d0 d1 d2 : DirState} (hperm : files1.Perm files2)
    (h1 : generateAll files1 d0 = .ok d1) (h2 : generateAll files2 d0 = .ok d2) :
    lookupD d1 kustomizationFileName = lookupD d2 kustomizationFileName ∧
    List.Sorted strLe (sortStrings (files1.map fun f => generatedFileName f.1)) ∧
    sortStrings (files1.map fun f => generatedFileName f.1) =
      sortStrings (files2.map fun f => generatedFileName f.1) := by
  have hsorteq : sortStrings (files1.map fun f => generatedFileName f.1) =
      sortStrings (files2.map fun f => generatedFileName f.1) :=
    sortStrings_eq_of_perm (hperm.map _)
  refine ⟨?_, sortStrings_sorted _, hsorteq⟩
  rcases generateAll_ok_inv h1 with ⟨_, W1, hloop1, hk1⟩
  rcases generateAll_ok_inv h2 with ⟨_, W2, hloop2, hk2⟩
  have l1 := lookupD_after_write hk1 kustomizationFileName
  have l2 := lookupD_after_write hk2 kustomizationFileName
  rw [if_pos rfl] at l1 l2
  rw [l1, l2, hsorteq]

/-! ## Idempotence of the full run -/

/-- The effect of stale-output cleanup on a single looked-up entry. -/
def filterStep (n : List Char) : Option Entry → Option Entry
  | some e => if e.isDir || !(hasSuffixB n schemaFileSuffix) then some e else none
  | none => none

theorem lookupD_removeGeneratedSchemas' (d : DirState) (hv : ValidDir d) (n : List Char) :
    lookupD (removeGeneratedSchemas d) n = filterStep n (lookupD d n) := by
  rw [lookupD_removeGeneratedSchemas d hv n]
  cases lookupD d n <;> rfl

theorem filterStep_some {n : List Char} {e : Entry}
    (h : (e.isDir || !(hasSuffixB n schemaFileSuffix)) = true) :
    filterStep n (some e) = some e := by
  show (if e.isDir || !(hasSuffixB n schemaFileSuffix) then some e else none) = some e
  rw [if_pos h]

theorem filterStep_idem (n : List Char) (o : Option Entry) :
    filterStep n (filterStep n o) = filterStep n o := by
  cases o with
  | none => rfl
  | some e =>
    by_cases h : (e.isDir || !(hasSuffixB n schemaFileSuffix)) = true
    · rw [filterStep_some h, filterStep_some h]
    · have h1 : filterStep n (some e) = none := by
        show (if e.isDir || !(hasSuffixB n schemaFileSuffix) then some e else none) = none
        rw [if_neg h]
      rw [h1]
      rfl

theorem filterStep_dir {n : List Char} {o : Option Entry}
    (h : filterStep n o = some Entry.dir) : o = some Entry.dir := by
  cases o with
  | none => exact Option.noConfusion h
  | some e =>
    by_cases hk : (e.isDir || !(hasSuffixB n schemaFileSuffix)) = true
    · rw [filterStep_some hk] at h
      exact h
    · have h1 : filterStep n (some e) = none := by
        show (if e.isDir || !(hasSuffixB n schemaFileSuffix) then some e else none) = none
        rw [if_neg hk]
      rw [h1] at h
      exact Option.noConfusion h

/-- C9: full-run idempotence — running the generator a second time on an
unchanged input set, over the directory state the first successful run
produced, succeeds and reproduces exactly that state (byte-identical
output-directory contents). -/
theorem c9_full_run_idempotent {fs : List (List Char × List Char)} {d0 d1 : DirState}
    (hv : ValidDir d0) (h1 : generateAll fs d0 = .ok d1) :
    generateAll fs d1 = .ok d1 := by
  rcases generateAll_ok_inv h1 with ⟨hfs, W1, hloop1, hk1⟩
  rcases generateLoop_ok_spec hloop1 with ⟨_, lookupW1, hdirs1, hvW1⟩
  have hk1' : writeFileToDir W1 kustomizationFileName
      (kustomizationContent (sortStrings (fs.map fun f => generatedFileName f.1))) =
      .ok d1 := hk1
  rcases writeFileToDir_ok_inv hk1' with ⟨hkdir1, hd1eq⟩
  have lookupd1 := fun k => lookupD_after_write hk1' k
  have hvC0 : ValidDir (removeGeneratedSchemas d0) := validDir_removeGeneratedSchemas hv
  have hvW1' : ValidDir W1 := hvW1 hvC0
  have hv1 : ValidDir d1 := by
    rw [hd1eq]
    exact validDir_insert W1 hvW1' _ _
  have hvC1 : ValidDir (removeGeneratedSchemas d1) := validDir_removeGeneratedSchemas hv1
  have lookupC1 := fun k => lookupD_removeGeneratedSchemas' d1 hv1 k
  have lookupC0 := fun k => lookupD_removeGeneratedSchemas' d0 hv k
  have hdirs2 : ∀ f ∈ fs, ¬ dirAt (removeGeneratedSchemas d1) (generatedFileName f.1) := by
    intro f hf hdir
    unfold dirAt at hdir
    rw [lookupC1 _] at hdir
    have hdir1 : lookupD d1 (generatedFileName f.1) = some Entry.dir := filterStep_dir hdir
    rw [lookupd1 _, if_neg (generatedFileName_ne_kustomization f.1)] at hdir1
    rw [lookupW1 _] at hdir1
    cases hlw : lastWrite fs (generatedFileName f.1) with
    | some m =>
      rw [hlw] at hdir1
      exact Entry.noConfusion (Option.some.inj hdir1)
    | none =>
      rw [hlw] at hdir1
      exact hdirs1 f hf hdir1
  rcases generateLoop_ok_of fs (removeGeneratedSchemas d1) [] hdirs2 with ⟨W2, hloop2⟩
  rw [List.nil_append] at hloop2
  rcases generateLoop_ok_spec hloop2 with ⟨_, lookupW2, _, hvW2⟩
  have hkc1 : lookupD d1 kustomizationFileName =
      some (Entry.file (replaceAllCRLF (kustomizationContent
        (sortStrings (fs.map fun f => generatedFileName f.1))))) := by
    rw [lookupd1 _, if_pos rfl]
  have hlookC1kust : lookupD (removeGeneratedSchemas d1) kustomizationFileName =
      some (Entry.file (replaceAllCRLF (kustomizationContent
        (sortStrings (fs.map fun f => generatedFileName f.1))))) := by
    rw [lookupC1 _, hkc1]
    exact filterStep_some rfl
  have hkdir2 : ¬ dirAt W2 kustomizationFileName := by
    unfold dirAt
    rw [lookupW2 _, lastWrite_kustomization_none fs, hlookC1kust]
    intro hh
    exact Entry.noConfusion (Option.some.inj hh)
  have hw2 : writeFileToDir W2 kustomizationFileName
      (kustomizationContent (sortStrings (fs.map fun f => generatedFileName f.1))) =
      .ok (some (insertE (W2.getD []) kustomizationFileName
        (Entry.file (replaceAllCRLF (kustomizationContent
          (sortStrings (fs.map fun f => generatedFileName f.1))))))) :=
    writeFileToDir_ok hkdir2
  have hstate : some (insertE (W2.getD []) kustomizationFileName
      (Entry.file (replaceAllCRLF (kustomizationContent
        (sortStrings (fs.map fun f => generatedFileName f.1)))))) = d1 := by
    rw [hd1eq]
    have hs2 : StrictSorted (insertE (W2.getD []) kustomizationFileName
        (Entry.file (replaceAllCRLF (kustomizationContent
          (sortStrings (fs.map fun f => generatedFileName f.1)))))) :=
      validDir_insert W2 (hvW2 hvC1) _ _
    have hs1 : StrictSorted (insertE (W1.getD []) kustomizationFileName
        (Entry.file (replaceAllCRLF (kustomizationContent
          (sortStrings (fs.map fun f => generatedFileName f.1)))))) :=
      validDir_insert W1 hvW1' _ _
    refine congrArg some (strictSorted_ext hs2 hs1 ?_)
    intro k
    show lookupD (some (insertE (W2.getD []) _ _)) k = lookupD (some (insertE (W1.getD []) _ _)) k
    rw [lookupD_some_insertE W2, lookupD_some_insertE W1]
    by_cases hk : k = kustomizationFileName
    · rw [if_pos hk, if_pos hk]
    · rw [if_neg hk, if_neg hk]
      rw [lookupW2 k, lookupW1 k]
      cases hlw : lastWrite fs k with
      | some m => rfl
      | none =>
        rw [lookupC1 k, lookupd1 k, if_neg hk, lookupW1 k, hlw, lookupC0 k]
        exact filterStep_idem k (lookupD d0 k)
  simp only [generateAll]
  rw [if_neg hfs, hloop2]
  show writeKustomization W2 (sortStrings (fs.map fun f => generatedFileName f.1)) = .ok d1
  show writeFileToDir W2 kustomizationFileName
      (kustomizationContent (sortStrings (fs.map fun f => generatedFileName f.1))) = .ok d1
  rw [hw2]
  exact congrArg Except.ok hstate

/-! ## Duplicate derived names -/

/-- How many entries of the directory carry the name `k`. -/
def countKey : List (List Char × Entry) → List Char → Nat
  | [], _ => 0
  | (m, _) :: rest, k => (if m = k then 1 else 0) + countKey rest k

theorem countKey_zero {tl : List (List Char × Entry)} {k : List Char}
    (h : ∀ x ∈ tl, x.1 ≠ k) : countKey tl k = 0 := by
  induction tl with
  | nil => rfl
  | cons hd rest ih =>
    obtain ⟨m, w⟩ := hd
    show (if m = k then 1 else 0) + countKey rest k = 0
    rw [if_neg (h (m, w) (List.mem_cons_self _ _)), ih fun x hx => h x (List.mem_cons_of_mem _ hx)]

theorem countKey_strictSorted {es : List (List Char × Entry)} (h : StrictSorted es)
    (k : List Char) :
    countKey es k = (match lookupE es k with | some _ => 1 | none => 0) := by
  induction es with
  | nil => rfl
  | cons hd tl ih =>
    obtain ⟨m, w⟩ := hd
    have h' := List.pairwise_cons.mp h
    show (if m = k then 1 else 0) + countKey tl k = _
    rw [lookupE_cons]
    by_cases hk : k = m
    · rw [if_pos hk.symm, if_pos hk]
      have hz : countKey tl k = 0 := by
        apply countKey_zero
        intro x hx hh
        exact (h'.1 x hx).2 (hk ▸ hh.symm ▸ rfl)
      rw [hz]
    · rw [if_neg fun hh => hk hh.symm, if_neg hk, ih h'.2]
      simp

/-- Sorting a two-element list whose entries are equal is the identity. -/
theorem sortStrings_pair_self (a : List Char) : sortStrings [a, a] = [a, a] := by
  show List.insertionSort strLe [a, a] = [a, a]
  simp only [List.insertionSort, List.orderedInsert]
  rw [ite_self]

/-- C10: when two distinct input files derive the same name, a single
run leaves exactly one manifest file for that name on disk — holding the
later input's manifest (last writer wins) — while `kustomization.yaml`'s
resources list contains the `<name>.schema.yaml` entry twice: the index
does not deduplicate. -/
theorem c10_duplicate_names (p1 p2 c1 c2 : List Char)
    (hdup : deriveSchemaNameFromFilename p1 = deriveSchemaNameFromFilename p2) :
    ∃ es, generateAll [(p1, c1), (p2, c2)] (some []) = .ok (some es) ∧
      countKey es (generatedFileName p2) = 1 ∧
      lookupE es (generatedFileName p2) = some (Entry.file (manifestFor p2 c2)) ∧
      lookupE es kustomizationFileName =
        some (Entry.file (replaceAllCRLF (kustomizationContent
          [generatedFileName p2, generatedFileName p2]))) := by
  have hout : generatedFileName p1 = generatedFileName p2 := by
    unfold generatedFileName
    rw [hdup]
  have hdirs : ∀ f ∈ [(p1, c1), (p2, c2)],
      ¬ dirAt (removeGeneratedSchemas (some [])) (generatedFileName f.1) := by
    intro f _ hdir
    exact Option.noConfusion hdir
  rcases generateLoop_ok_of [(p1, c1), (p2, c2)] (removeGeneratedSchemas (some [])) []
    hdirs with ⟨W, hloop⟩
  rw [List.nil_append] at hloop
  rcases generateLoop_ok_spec hloop with ⟨_, lookupW, _, hvW⟩
  have hmap : [(p1, c1), (p2, c2)].map (fun f => generatedFileName f.1) =
      [generatedFileName p2, generatedFileName p2] := by
    simp [hout]
  have hlw2 : lastWrite [(p1, c1), (p2, c2)] (generatedFileName p2) =
      some (manifestFor p2 c2) := by
    simp [lastWrite]
  have hlwk : lastWrite [(p1, c1), (p2, c2)] kustomizationFileName = none :=
    lastWrite_kustomization_none _
  have hkdir : ¬ dirAt W kustomizationFileName := by
    unfold dirAt
    rw [lookupW _, hlwk]
    intro hh
    exact Option.noConfusion hh
  have hw : writeFileToDir W kustomizationFileName
      (kustomizationContent (sortStrings ([(p1, c1), (p2, c2)].map
        fun f => generatedFileName f.1))) =
      .ok (some (insertE (W.getD []) kustomizationFileName
        (Entry.file (replaceAllCRLF (kustomizationContent (sortStrings
          ([(p1, c1), (p2, c2)].map fun f => generatedFileName f.1))))))) :=
    writeFileToDir_ok hkdir
  have hsort : sortStrings ([(p1, c1), (p2, c2)].map fun f => generatedFileName f.1) =
      [generatedFileName p2, generatedFileName p2] := by
    rw [hmap, sortStrings_pair_self]
  refine ⟨insertE (W.getD []) kustomizationFileName
    (Entry.file (replaceAllCRLF (kustomizationContent
      [generatedFileName p2, generatedFileName p2]))), ?_, ?_, ?_, ?_⟩
  · simp only [generateAll]
    rw [if_neg (by simp), hloop]
    show writeKustomization W (sortStrings ([(p1, c1), (p2, c2)].map
      fun f => generatedFileName f.1)) = _
    show writeFileToDir W kustomizationFileName
      (kustomizationContent (sortStrings ([(p1, c1), (p2, c2)].map
        fun f => generatedFileName f.1))) = _
    rw [hw, hsort]
  · rw [countKey_strictSorted (validDir_insert W (hvW List.Pairwise.nil) _ _)]
    have hl : lookupE (insertE (W.getD []) kustomizationFileName
        (Entry.file (replaceAllCRLF (kustomizationContent
          [generatedFileName p2, generatedFileName p2])))) (generatedFileName p2) =
        some (Entry.file (manifestFor p2 c2)) := by
      rw [lookupE_insertE, if_neg (generatedFileName_ne_kustomization p2),
        ← lookupD_getD, lookupW _, hlw2]
    rw [hl]
  · rw [lookupE_insertE, if_neg (generatedFileName_ne_kustomization p2),
      ← lookupD_getD, lookupW _, hlw2]
  · rw [lookupE_insertE, if_pos rfl]

/-- Witness for C8 at two concrete permuted input lists. -/
theorem c8_witness :
    lookupD (some
      [("a.schema.yaml".toList,
        Entry.file ("apiVersion: pubsub.cnrm.cloud.google.com/v1beta1\nkind: PubSubSchema\nmetadata:\n  name: a\nspec:\n  type: PROTOCOL_BUFFER\n  definition: |\n    x\n    ".toList)),
       ("b.schema.yaml".toList,
        Entry.file ("apiVersion: pubsub.cnrm.cloud.google.com/v1beta1\nkind: PubSubSchema\nmetadata:\n  name: b\nspec:\n  type: PROTOCOL_BUFFER\n  definition: |\n    y\n    ".toList)),
       ("kustomization.yaml".toList,
        Entry.file ("apiVersion: kustomize.config.k8s.io/v1beta1\nkind: Kustomization\n\nresources:\n  - a.schema.yaml\n  - b.schema.yaml\n".toList))])
      kustomizationFileName =
    lookupD (some
      [("a.schema.yaml".toList,
        Entry.file ("apiVersion: pubsub.cnrm.cloud.google.com/v1beta1\nkind: PubSubSchema\nmetadata:\n  name: a\nspec:\n  type: PROTOCOL_BUFFER\n  definition: |\n    x\n    ".toList)),
       ("b.schema.yaml".toList,
        Entry.file ("apiVersion: pubsub.cnrm.cloud.google.com/v1beta1\nkind: PubSubSchema\nmetadata:\n  name: b\nspec:\n  type: PROTOCOL_BUFFER\n  definition: |\n    y\n    ".toList)),
       ("kustomization.yaml".toList,
        Entry.file ("apiVersion: kustomize.config.k8s.io/v1beta1\nkind: Kustomization\n\nresources:\n  - a.schema.yaml\n  - b.schema.yaml\n".toList))])
      kustomizationFileName ∧
    List.Sorted strLe (sortStrings
      ([("a.pubsub.proto".toList, "x\n".toList),
        ("b.pubsub.proto".toList, "y\n".toList)].map fun f => generatedFileName f.1)) ∧
    sortStrings ([("a.pubsub.proto".toList, "x\n".toList),
        ("b.pubsub.proto".toList, "y\n".toList)].map fun f => generatedFileName f.1) =
      sortStrings ([("b.pubsub.proto".toList, "y\n".toList),
        ("a.pubsub.proto".toList, "x\n".toList)].map fun f => generatedFileName f.1) :=
  @c8_index_permutation_invariant _ _ none _ _
    (List.Perm.swap ("b.pubsub.proto".toList, "y\n".toList)
      ("a.pubsub.proto".toList, "x\n".toList) [])
    (by rfl) (by rfl)

/-- Witness for C9 at a concrete one-file run from a fresh directory. -/
theorem c9_witness :
    generateAll [("a.pubsub.proto".toList, "x\n".toList)]
      (some
        [("a.schema.yaml".toList,
          Entry.file ("apiVersion: pubsub.cnrm.cloud.google.com/v1beta1\nkind: PubSubSchema\nmetadata:\n  name: a\nspec:\n  type: PROTOCOL_BUFFER\n  definition: |\n    x\n    ".toList)),
         ("kustomization.yaml".toList,
          Entry.file ("apiVersion: kustomize.config.k8s.io/v1beta1\nkind: Kustomization\n\nresources:\n  - a.schema.yaml\n".toList))]) =
    .ok (some
        [("a.schema.yaml".toList,
          Entry.file ("apiVersion: pubsub.cnrm.cloud.google.com/v1beta1\nkind: PubSubSchema\nmetadata:\n  name: a\nspec:\n  type: PROTOCOL_BUFFER\n  definition: |\n    x\n    ".toList)),
         ("kustomization.yaml".toList,
          Entry.file ("apiVersion: kustomize.config.k8s.io/v1beta1\nkind: Kustomization\n\nresources:\n  - a.schema.yaml\n".toList))]) :=
  @c9_full_run_idempotent _ none _ trivial (by rfl)

/-- Witness for C10 at two concrete colliding input files. -/
theorem c10_witness :
    ∃ es, generateAll [("a.b.pubsub.proto".toList, "one\n".toList),
        ("a_b.pubsub.proto".toList, "two\n".toList)] (some []) = .ok (some es) ∧
      countKey es (generatedFileName ("a_b.pubsub.proto".toList)) = 1 ∧
      lookupE es (generatedFileName ("a_b.pubsub.proto".toList)) =
        some (Entry.file (manifestFor ("a_b.pubsub.proto".toList) ("two\n".toList))) ∧
      lookupE es kustomizationFileName =
        some (Entry.file (replaceAllCRLF (kustomizationContent
          [generatedFileName ("a_b.pubsub.proto".toList),
           generatedFileName ("a_b.pubsub.proto".toList)]))) :=
  c10_duplicate_names ("a.b.pubsub.proto".toList) ("a_b.pubsub.proto".toList)
    "one\n".toList ("two\n".toList) (by decide)
